import Mathlib

/-!
Verification of the document-chunking engine of the Thai NLP sidecar
(`src/thai-nlp-sidecar/main.py`, endpoint `chunk`).

The external collaborators (PyThaiNLP `sent_tokenize` and `word_tokenize`)
are modelled as function parameters:
  * `sent_tok : String → List String`  — sentence segmentation;
  * `word_tok : String → List String`  — word tokenization; a sentence's
    token count is `(word_tok s).length`, exactly as the source computes
    `len(word_tok(sent, engine="newmm", keep_whitespace=False))`.
Fallible variants (`Except Unit`) model the Python `try/except` boundary.
-/

namespace ThaiNLP

/-- Python `str.strip()` on a sentence: drop leading and trailing
whitespace characters.  Modelled on the character list (structurally
recursive, hence kernel-computable). -/
def strip (s : String) : String :=
  String.mk (((s.data.dropWhile Char.isWhitespace).reverse.dropWhile Char.isWhitespace).reverse)

/-- Response model of the `chunk` endpoint: the ordered chunk texts and
their count (`elapsed_ms` is transport-layer timing, not modelled). -/
structure ChunkResponse where
  chunks : List String
  count : Nat
deriving DecidableEq, Repr

/-- Token count of a sentence: `len(word_tok(s, engine="newmm", keep_whitespace=False))`. -/
def tokCount (word_tok : String → List String) (s : String) : Nat :=
  (word_tok s).length

/-- Sum of the token counts of a list of sentences. -/
def sumTC (word_tok : String → List String) (l : List String) : Nat :=
  (l.map (tokCount word_tok)).sum

/-- The backward overlap scan (`for s in reversed(current_sentences): ...`),
translated with the reversed buffer as explicit input.  `acc`/`cnt` are
`overlap_sents`/`overlap_count`; `overlap_sents.insert(0, s)` is `s :: acc`. -/
def overlapLoop (word_tok : String → List String) (overlap : Nat) :
    List String → List String → Nat → List String × Nat
  | [], acc, cnt => (acc, cnt)
  | s :: rest, acc, cnt =>
    let s_tc := (word_tok s).length
    if cnt + s_tc > overlap then (acc, cnt)
    else overlapLoop word_tok overlap rest (s :: acc) (cnt + s_tc)

/-- Overlap selection on the just-flushed buffer: scan it from the end. -/
def overlapSelect (word_tok : String → List String) (overlap : Nat)
    (current_sentences : List String) : List String × Nat :=
  overlapLoop word_tok overlap current_sentences.reverse [] 0

/-- Reset of the buffer at a flush: the overlap branch of the source
(`if req.overlap > 0: ... else: current_sentences = []; current_token_count = 0`). -/
def resetBuf (word_tok : String → List String) (overlap : Nat)
    (current_sentences : List String) : List String × Nat :=
  if overlap > 0 then overlapSelect word_tok overlap current_sentences else ([], 0)

/-- The main sentence loop of `chunk`, with chunks kept as joined strings
exactly as in the source (`chunks.append(" ".join(current_sentences))`).
State: `(chunks, current_sentences, current_token_count)`. -/
def chunkLoopS (word_tok : String → List String) (max_tokens overlap : Nat) :
    List String → List String → List String → Nat →
    List String × List String × Nat
  | [], chunks, cur, tot => (chunks, cur, tot)
  | sent :: rest, chunks, cur, tot =>
    let s := strip sent
    if s = "" then chunkLoopS word_tok max_tokens overlap rest chunks cur tot
    else
      let sent_token_count := (word_tok s).length
      if tot + sent_token_count > max_tokens ∧ cur ≠ [] then
        let chunks1 := chunks ++ [String.intercalate " " cur]
        let co := resetBuf word_tok overlap cur
        chunkLoopS word_tok max_tokens overlap rest chunks1
          (co.1 ++ [s]) (co.2 + sent_token_count)
      else
        chunkLoopS word_tok max_tokens overlap rest chunks
          (cur ++ [s]) (tot + sent_token_count)

/-- The `chunk` endpoint body assuming the collaborators do not raise
(the pure specialization of the `try` block, degradation branch for
`if not sentences` included). -/
def chunkTry (sent_tok word_tok : String → List String)
    (text : String) (max_tokens overlap : Nat) : ChunkResponse :=
  let sentences := sent_tok text
  if sentences = [] then ⟨[text], 1⟩
  else
    let r := chunkLoopS word_tok max_tokens overlap sentences [] [] 0
    let chunks := if r.2.1 ≠ [] then r.1 ++ [String.intercalate " " r.2.1] else r.1
    ⟨chunks, chunks.length⟩

/-! ### Fallible model of the adapters and the `try/except` boundary -/

/-- Fallible backward overlap scan: each `word_tok` call may raise. -/
def overlapLoopE (word_tok : String → Except Unit (List String)) (overlap : Nat) :
    List String → List String → Nat → Except Unit (List String × Nat)
  | [], acc, cnt => .ok (acc, cnt)
  | s :: rest, acc, cnt => do
    let toks ← word_tok s
    let s_tc := toks.length
    if cnt + s_tc > overlap then return (acc, cnt)
    else overlapLoopE word_tok overlap rest (s :: acc) (cnt + s_tc)

/-- Fallible main loop: each `word_tok` call may raise; a raise aborts. -/
def chunkLoopE (word_tok : String → Except Unit (List String)) (max_tokens overlap : Nat) :
    List String → List String → List String → Nat →
    Except Unit (List String × List String × Nat)
  | [], chunks, cur, tot => .ok (chunks, cur, tot)
  | sent :: rest, chunks, cur, tot => do
    let s := strip sent
    if s = "" then chunkLoopE word_tok max_tokens overlap rest chunks cur tot
    else do
      let toks ← word_tok s
      let sent_token_count := toks.length
      if tot + sent_token_count > max_tokens ∧ cur ≠ [] then
        let chunks1 := chunks ++ [String.intercalate " " cur]
        let co ← if overlap > 0 then
            (do
              let r ← overlapLoopE word_tok overlap cur.reverse [] 0
              return r)
          else pure ([], 0)
        chunkLoopE word_tok max_tokens overlap rest chunks1
          (co.1 ++ [s]) (co.2 + sent_token_count)
      else
        chunkLoopE word_tok max_tokens overlap rest chunks
          (cur ++ [s]) (tot + sent_token_count)

/-- The body of the `try` block with fallible adapters. -/
def chunkBodyE (sent_tok : String → Except Unit (List String))
    (word_tok : String → Except Unit (List String))
    (text : String) (max_tokens overlap : Nat) : Except Unit ChunkResponse := do
  let sentences ← sent_tok text
  if sentences = [] then return ⟨[text], 1⟩
  else do
    let r ← chunkLoopE word_tok max_tokens overlap sentences [] [] 0
    let chunks := if r.2.1 ≠ [] then r.1 ++ [String.intercalate " " r.2.1] else r.1
    return ⟨chunks, chunks.length⟩

/-- The `chunk` endpoint: the `try/except` boundary catches any failure
and degrades to the single whole-document chunk. -/
def chunk (sent_tok : String → Except Unit (List String))
    (word_tok : String → Except Unit (List String))
    (text : String) (max_tokens overlap : Nat) : ChunkResponse :=
  match chunkBodyE sent_tok word_tok text max_tokens overlap with
  | .ok r => r
  | .error _ => ⟨[text], 1⟩

/-! ### Proof-layer views of the loop

`chunkLoopB` keeps each chunk as its list of sentences instead of the
joined string; `chunkLoopT` runs on the pre-stripped non-blank sentence
list; `chunkLoopI` additionally splits each buffer into its carried-over
part and its newly appended part.  Each is connected to `chunkLoopS` by an
erasure lemma below. -/

/-- The non-blank stripped sentences of a sentence list, in order — the
sentences the loop actually processes. -/
def filteredTrim : List String → List String
  | [] => []
  | sent :: rest =>
    let s := strip sent
    if s = "" then filteredTrim rest else s :: filteredTrim rest

/-- The main loop with chunks kept as sentence lists (joined only at the
end); same control flow as `chunkLoopS`. -/
def chunkLoopB (word_tok : String → List String) (max_tokens overlap : Nat) :
    List String → List (List String) → List String → Nat →
    List (List String) × List String × Nat
  | [], chunks, cur, tot => (chunks, cur, tot)
  | sent :: rest, chunks, cur, tot =>
    let s := strip sent
    if s = "" then chunkLoopB word_tok max_tokens overlap rest chunks cur tot
    else
      let sent_token_count := (word_tok s).length
      if tot + sent_token_count > max_tokens ∧ cur ≠ [] then
        let co := resetBuf word_tok overlap cur
        chunkLoopB word_tok max_tokens overlap rest (chunks ++ [cur])
          (co.1 ++ [s]) (co.2 + sent_token_count)
      else
        chunkLoopB word_tok max_tokens overlap rest chunks
          (cur ++ [s]) (tot + sent_token_count)

/-- The chunks of a document as sentence lists: run the loop and flush the
final buffer, exactly as `chunk` does before joining. -/
def chunkCore (word_tok : String → List String) (max_tokens overlap : Nat)
    (sentences : List String) : List (List String) :=
  let r := chunkLoopB word_tok max_tokens overlap sentences [] [] 0
  if r.2.1 ≠ [] then r.1 ++ [r.2.1] else r.1

/-- The main loop on an already stripped, non-blank sentence list. -/
def chunkLoopT (word_tok : String → List String) (max_tokens overlap : Nat) :
    List String → List (List String) → List String → Nat →
    List (List String) × List String × Nat
  | [], chunks, cur, tot => (chunks, cur, tot)
  | s :: rest, chunks, cur, tot =>
    let sent_token_count := (word_tok s).length
    if tot + sent_token_count > max_tokens ∧ cur ≠ [] then
      let co := resetBuf word_tok overlap cur
      chunkLoopT word_tok max_tokens overlap rest (chunks ++ [cur])
        (co.1 ++ [s]) (co.2 + sent_token_count)
    else
      chunkLoopT word_tok max_tokens overlap rest chunks
        (cur ++ [s]) (tot + sent_token_count)

/-- A buffer split into its carried-over part and its newly added part. -/
def glue (p : List String × List String) : List String := p.1 ++ p.2

/-- The main loop instrumented to record, for every chunk, which of its
sentences were carried over by the overlap reset and which are new. -/
def chunkLoopI (word_tok : String → List String) (max_tokens overlap : Nat) :
    List String → List (List String × List String) → List String × List String → Nat →
    List (List String × List String) × (List String × List String) × Nat
  | [], chunks, cur, tot => (chunks, cur, tot)
  | sent :: rest, chunks, cur, tot =>
    let s := strip sent
    if s = "" then chunkLoopI word_tok max_tokens overlap rest chunks cur tot
    else
      let sent_token_count := (word_tok s).length
      if tot + sent_token_count > max_tokens ∧ glue cur ≠ [] then
        let co := resetBuf word_tok overlap (glue cur)
        chunkLoopI word_tok max_tokens overlap rest (chunks ++ [cur])
          (co.1, [s]) (co.2 + sent_token_count)
      else
        chunkLoopI word_tok max_tokens overlap rest chunks
          (cur.1, cur.2 ++ [s]) (tot + sent_token_count)

/-! ### The cached-count variant (refinement candidate of §9 of the spec)

Modelled from the spec: "caching per-sentence counts computed in the main
pass and reusing them during the backward scan" — the buffer holds
`(sentence, token count)` pairs and the backward scan reads the stored
count instead of calling `word_tok` again. -/

/-- Backward overlap scan over cached `(sentence, count)` pairs. -/
def overlapLoopC (overlap : Nat) :
    List (String × Nat) → List (String × Nat) → Nat → List (String × Nat) × Nat
  | [], acc, cnt => (acc, cnt)
  | p :: rest, acc, cnt =>
    if cnt + p.2 > overlap then (acc, cnt)
    else overlapLoopC overlap rest (p :: acc) (cnt + p.2)

/-- Buffer reset at a flush, using cached counts. -/
def resetBufC (overlap : Nat) (cur : List (String × Nat)) :
    List (String × Nat) × Nat :=
  if overlap > 0 then overlapLoopC overlap cur.reverse [] 0 else ([], 0)

/-- Main loop of the cached variant: counts are computed once in the main
pass, stored beside the sentence, and reused by the backward scan. -/
def chunkLoopSC (word_tok : String → List String) (max_tokens overlap : Nat) :
    List String → List String → List (String × Nat) → Nat →
    List String × List (String × Nat) × Nat
  | [], chunks, cur, tot => (chunks, cur, tot)
  | sent :: rest, chunks, cur, tot =>
    let s := strip sent
    if s = "" then chunkLoopSC word_tok max_tokens overlap rest chunks cur tot
    else
      let sent_token_count := (word_tok s).length
      if tot + sent_token_count > max_tokens ∧ cur ≠ [] then
        let chunks1 := chunks ++ [String.intercalate " " (cur.map Prod.fst)]
        let co := resetBufC overlap cur
        chunkLoopSC word_tok max_tokens overlap rest chunks1
          (co.1 ++ [(s, sent_token_count)]) (co.2 + sent_token_count)
      else
        chunkLoopSC word_tok max_tokens overlap rest chunks
          (cur ++ [(s, sent_token_count)]) (tot + sent_token_count)

/-- The `chunk` operation of the cached variant (non-failing adapters). -/
def chunkTryCached (sent_tok word_tok : String → List String)
    (text : String) (max_tokens overlap : Nat) : ChunkResponse :=
  let sentences := sent_tok text
  if sentences = [] then ⟨[text], 1⟩
  else
    let r := chunkLoopSC word_tok max_tokens overlap sentences [] [] 0
    let chunks :=
      if r.2.1 ≠ [] then r.1 ++ [String.intercalate " " (r.2.1.map Prod.fst)] else r.1
    ⟨chunks, chunks.length⟩

/-! ### Helper lemmas -/

theorem sumTC_nil (wt : String → List String) : sumTC wt [] = 0 := rfl

theorem sumTC_cons (wt : String → List String) (s : String) (l : List String) :
    sumTC wt (s :: l) = tokCount wt s + sumTC wt l := by
  simp [sumTC]

theorem sumTC_append (wt : String → List String) (a b : List String) :
    sumTC wt (a ++ b) = sumTC wt a + sumTC wt b := by
  simp [sumTC]

theorem sumTC_reverse (wt : String → List String) (l : List String) :
    sumTC wt l.reverse = sumTC wt l := by
  simp [sumTC, List.sum_reverse]

/-- Full behaviour of the backward overlap scan: it consumes a prefix `p` of
its (reversed) input, prepends `p.reverse` to the accumulator, adds the
token counts of `p`, and never lets the running count pass `overlap`. -/
theorem overlapLoop_spec (wt : String → List String) (ov : Nat) :
    ∀ (rl acc : List String) (cnt : Nat),
      ∃ p, p <+: rl ∧
        overlapLoop wt ov rl acc cnt = (p.reverse ++ acc, cnt + sumTC wt p) ∧
        (cnt ≤ ov → cnt + sumTC wt p ≤ ov) := by
  intro rl
  induction rl with
  | nil =>
    intro acc cnt
    exact ⟨[], List.nil_prefix, by simp [overlapLoop, sumTC], fun h => by
      simpa [sumTC] using h⟩
  | cons s rest ih =>
    intro acc cnt
    by_cases hc : cnt + (wt s).length > ov
    · refine ⟨[], List.nil_prefix, ?_, fun h => by simpa [sumTC] using h⟩
      simp [overlapLoop, hc, sumTC]
    · obtain ⟨p, hp, heq, hb⟩ := ih (s :: acc) (cnt + (wt s).length)
      obtain ⟨t, ht⟩ := hp
      refine ⟨s :: p, ⟨t, by simp [← ht]⟩, ?_, ?_⟩
      · simp only [overlapLoop, if_neg hc]
        rw [heq]
        simp [sumTC_cons, tokCount, List.append_assoc, Nat.add_assoc]
      · intro h
        have h1 : cnt + (wt s).length ≤ ov := by omega
        have h2 := hb h1
        have h3 : sumTC wt (s :: p) = (wt s).length + sumTC wt p := by
          simp [sumTC_cons, tokCount]
        omega

/-- Behaviour of the buffer reset at a flush: the new buffer is a suffix of
the flushed one, its recorded total is the sum of its token counts and is
bounded by `overlap`, and it is empty when `overlap = 0`. -/
theorem resetBuf_spec (wt : String → List String) (ov : Nat) (cur : List String) :
    (resetBuf wt ov cur).2 = sumTC wt (resetBuf wt ov cur).1 ∧
    (resetBuf wt ov cur).1 <:+ cur ∧
    (resetBuf wt ov cur).2 ≤ ov ∧
    (ov = 0 → (resetBuf wt ov cur).1 = []) := by
  by_cases h : ov > 0
  · obtain ⟨p, hp, heq, hb⟩ := overlapLoop_spec wt ov cur.reverse [] 0
    unfold resetBuf overlapSelect
    rw [if_pos h, heq]
    refine ⟨by simp [sumTC_reverse], ?_, by simpa using hb (Nat.zero_le _), fun h0 => by omega⟩
    have : p.reverse <:+ cur.reverse.reverse := List.reverse_suffix.mpr hp
    simpa using this
  · have hov : ov = 0 := by omega
    subst hov
    unfold resetBuf
    simp [sumTC]

/-- Erasure: `chunkLoopS` is `chunkLoopB` with the chunks joined by single
spaces at flush time. -/
theorem chunkLoopS_eq_map (wt : String → List String) (M ov : Nat) :
    ∀ (l : List String) (ch : List (List String)) (cur : List String) (tot : Nat),
      chunkLoopS wt M ov l (ch.map (String.intercalate " ")) cur tot =
        ((chunkLoopB wt M ov l ch cur tot).1.map (String.intercalate " "),
         (chunkLoopB wt M ov l ch cur tot).2) := by
  intro l
  induction l with
  | nil => intro ch cur tot; rfl
  | cons sent rest ih =>
    intro ch cur tot
    simp only [chunkLoopS, chunkLoopB]
    by_cases hb : strip sent = ""
    · rw [if_pos hb, if_pos hb]
      exact ih ch cur tot
    · rw [if_neg hb, if_neg hb]
      by_cases hf : tot + (wt (strip sent)).length > M ∧ cur ≠ []
      · rw [if_pos hf, if_pos hf]
        have h := ih (ch ++ [cur]) ((resetBuf wt ov cur).1 ++ [strip sent])
          ((resetBuf wt ov cur).2 + (wt (strip sent)).length)
        simpa [List.map_append] using h
      · rw [if_neg hf, if_neg hf]
        exact ih ch (cur ++ [strip sent]) (tot + (wt (strip sent)).length)

/-- The loop only looks at the stripped non-blank sentences. -/
theorem chunkLoopB_eq_trimmed (wt : String → List String) (M ov : Nat) :
    ∀ (l : List String) (ch : List (List String)) (cur : List String) (tot : Nat),
      chunkLoopB wt M ov l ch cur tot =
        chunkLoopT wt M ov (filteredTrim l) ch cur tot := by
  intro l
  induction l with
  | nil => intro ch cur tot; rfl
  | cons sent rest ih =>
    intro ch cur tot
    simp only [chunkLoopB, filteredTrim]
    by_cases hb : strip sent = ""
    · rw [if_pos hb, if_pos hb]
      exact ih ch cur tot
    · rw [if_neg hb, if_neg hb]
      simp only [chunkLoopT]
      by_cases hf : tot + (wt (strip sent)).length > M ∧ cur ≠ []
      · rw [if_pos hf, if_pos hf]
        exact ih _ _ _
      · rw [if_neg hf, if_neg hf]
        exact ih _ _ _

/-- Erasure: the instrumented loop projects to `chunkLoopB` by gluing each
carry/new pair. -/
theorem chunkLoopI_glue (wt : String → List String) (M ov : Nat) :
    ∀ (l : List String) (ch : List (List String × List String))
      (cur : List String × List String) (tot : Nat),
      chunkLoopB wt M ov l (ch.map glue) (glue cur) tot =
        ((chunkLoopI wt M ov l ch cur tot).1.map glue,
         glue (chunkLoopI wt M ov l ch cur tot).2.1,
         (chunkLoopI wt M ov l ch cur tot).2.2) := by
  intro l
  induction l with
  | nil => intro ch cur tot; rfl
  | cons sent rest ih =>
    intro ch cur tot
    simp only [chunkLoopB, chunkLoopI]
    by_cases hb : strip sent = ""
    · rw [if_pos hb, if_pos hb]
      exact ih ch cur tot
    · rw [if_neg hb, if_neg hb]
      by_cases hf : tot + (wt (strip sent)).length > M ∧ glue cur ≠ []
      · rw [if_pos hf, if_pos hf]
        have h := ih (ch ++ [cur])
          ((resetBuf wt ov (glue cur)).1, [strip sent])
          ((resetBuf wt ov (glue cur)).2 + (wt (strip sent)).length)
        simpa [List.map_append, glue] using h
      · rw [if_neg hf, if_neg hf]
        have h := ih ch (cur.1, cur.2 ++ [strip sent]) (tot + (wt (strip sent)).length)
        have harg : glue cur ++ [strip sent] = glue (cur.1, cur.2 ++ [strip sent]) := by
          simp [glue]
        rw [harg]
        exact h

/-- On the non-degenerate path, the response is the sentence-list chunks
joined by single spaces, and the count is their number. -/
theorem chunkTry_eq_core (sent_tok word_tok : String → List String)
    (text : String) (M ov : Nat) (h : sent_tok text ≠ []) :
    chunkTry sent_tok word_tok text M ov =
      ⟨(chunkCore word_tok M ov (sent_tok text)).map (String.intercalate " "),
       (chunkCore word_tok M ov (sent_tok text)).length⟩ := by
  unfold chunkTry chunkCore
  rw [if_neg h]
  have he := chunkLoopS_eq_map word_tok M ov (sent_tok text) [] [] 0
  simp only [List.map_nil] at he
  rw [he]
  by_cases hc : (chunkLoopB word_tok M ov (sent_tok text) [] [] 0).2.1 = []
  · simp [hc]
  · simp [hc, List.map_append]

/-- Loop invariant for the budget bound: when every processed sentence has
token count at most `M`, the running total equals the buffer's summed
counts and stays at most `M + ov`, and every emitted chunk sums to at most
`M + ov`. -/
theorem chunkLoopB_budget (wt : String → List String) (M ov : Nat) :
    ∀ (l : List String) (ch : List (List String)) (cur : List String) (tot : Nat),
      (∀ sent ∈ l, strip sent ≠ "" → tokCount wt (strip sent) ≤ M) →
      tot = sumTC wt cur →
      tot ≤ M + ov →
      (∀ b ∈ ch, sumTC wt b ≤ M + ov) →
      (∀ b ∈ (chunkLoopB wt M ov l ch cur tot).1, sumTC wt b ≤ M + ov) ∧
      (chunkLoopB wt M ov l ch cur tot).2.2 =
        sumTC wt (chunkLoopB wt M ov l ch cur tot).2.1 ∧
      (chunkLoopB wt M ov l ch cur tot).2.2 ≤ M + ov := by
  intro l
  induction l with
  | nil =>
    intro ch cur tot _ hsum hbound hch
    exact ⟨hch, hsum, hbound⟩
  | cons sent rest ih =>
    intro ch cur tot hl hsum hbound hch
    simp only [chunkLoopB]
    by_cases hb : strip sent = ""
    · rw [if_pos hb]
      exact ih ch cur tot (fun s hs h => hl s (List.mem_cons_of_mem _ hs) h) hsum hbound hch
    · rw [if_neg hb]
      have hcnt : (wt (strip sent)).length ≤ M := hl sent (List.mem_cons_self _ _) hb
      by_cases hf : tot + (wt (strip sent)).length > M ∧ cur ≠ []
      · rw [if_pos hf]
        obtain ⟨hr1, _, hr3, _⟩ := resetBuf_spec wt ov cur
        apply ih
        · exact fun s hs h => hl s (List.mem_cons_of_mem _ hs) h
        · rw [sumTC_append, ← hr1, sumTC_cons, sumTC_nil, tokCount]
          omega
        · omega
        · intro b hbmem
          rcases List.mem_append.mp hbmem with h | h
          · exact hch b h
          · have hbcur : b = cur := by simpa using h
            subst hbcur
            rw [← hsum]
            exact hbound
      · rw [if_neg hf]
        apply ih
        · exact fun s hs h => hl s (List.mem_cons_of_mem _ hs) h
        · rw [sumTC_append, ← hsum, sumTC_cons, sumTC_nil, tokCount]
          omega
        · by_cases hA : tot + (wt (strip sent)).length > M
          · have hcur : cur = [] := by
              by_contra hne
              exact hf ⟨hA, hne⟩
            have htot : tot = 0 := by rw [hsum, hcur, sumTC_nil]
            omega
          · omega
        · exact hch

/-- Loop invariant for `overlap = 0`: the buffer is either within budget or
a single oversized sentence, and every emitted chunk containing an
oversized sentence is that sentence alone. -/
theorem chunkLoopB_oversize (wt : String → List String) (M : Nat) :
    ∀ (l : List String) (ch : List (List String)) (cur : List String) (tot : Nat),
      tot = sumTC wt cur →
      (∀ s ∈ cur, M < tokCount wt s → cur = [s]) →
      (∀ b ∈ ch, ∀ s ∈ b, M < tokCount wt s → b = [s]) →
      (∀ b ∈ (chunkLoopB wt M 0 l ch cur tot).1, ∀ s ∈ b,
          M < tokCount wt s → b = [s]) ∧
      (∀ s ∈ (chunkLoopB wt M 0 l ch cur tot).2.1, M < tokCount wt s →
          (chunkLoopB wt M 0 l ch cur tot).2.1 = [s]) := by
  intro l
  induction l with
  | nil =>
    intro ch cur tot _ hcur hch
    exact ⟨hch, hcur⟩
  | cons sent rest ih =>
    intro ch cur tot hsum hcur hch
    simp only [chunkLoopB]
    by_cases hb : strip sent = ""
    · rw [if_pos hb]
      exact ih ch cur tot hsum hcur hch
    · rw [if_neg hb]
      have hrb : resetBuf wt 0 cur = ([], 0) := by simp [resetBuf]
      by_cases hf : tot + (wt (strip sent)).length > M ∧ cur ≠ []
      · rw [if_pos hf, hrb]
        simp only [List.nil_append]
        apply ih
        · simp [sumTC_cons, sumTC_nil, tokCount]
        · intro x hx _
          have hxs : x = strip sent := by simpa using hx
          rw [hxs]
        · intro b hbmem x hx hover
          rcases List.mem_append.mp hbmem with h | h
          · exact hch b h x hx hover
          · have hbcur : b = cur := by simpa using h
            subst hbcur
            exact hcur x hx hover
      · rw [if_neg hf]
        by_cases hA : tot + (wt (strip sent)).length > M
        · have hce : cur = [] := by
            by_contra hne
            exact hf ⟨hA, hne⟩
          subst hce
          simp only [List.nil_append]
          apply ih
          · rw [hsum]
            simp [sumTC, tokCount]
          · intro x hx _
            have hxs : x = strip sent := by simpa using hx
            rw [hxs]
          · exact hch
        · apply ih
          · rw [sumTC_append, ← hsum, sumTC_cons, sumTC_nil, tokCount]
            omega
          · intro x hx hover
            rcases List.mem_append.mp hx with h | h
            · have hc2 := hcur x h hover
              subst hc2
              rw [tokCount] at hover
              have htot : tot = (wt x).length := by
                rw [hsum, sumTC_cons, sumTC_nil, tokCount]
                omega
              omega
            · have hxs : x = strip sent := by simpa using h
              rw [hxs, tokCount] at hover
              omega
          · exact hch

/-! ### Concrete inputs for witnesses and counterexamples -/

/-- One token per character: the token counter used in concrete instances. -/
def tokPerChar (s : String) : List String :=
  List.replicate s.length "x"

/-- Segmenter for the C1 counterexample: sentences of 6, 7 and 1 tokens. -/
def segCex1 (_ : String) : List String := ["aaaaaa", "bbbbbbb", "c"]

/-- A 20-character (20-token) sentence, oversized for `max_tokens = 10`. -/
def bigSent : String := String.mk (List.replicate 20 'b')

/-- Segmenter for the C2 counterexample: a short sentence then an oversized one. -/
def segCex2 (_ : String) : List String := ["aaaaaa", bigSent]

/-- Segmenter producing two four-token sentences. -/
def segTwoShort (_ : String) : List String := ["aaaa", "bbbb"]

/-- Segmenter producing a single oversized four-token sentence. -/
def segOneBig (_ : String) : List String := ["aaaa"]

/-! ### Claims -/

/-- C1 (amended): for every document, `max_tokens ≥ 1` and `overlap ≥ 0`,
if every non-blank stripped sentence produced by segmentation has token
count at most `max_tokens`, then every chunk's total token count (the sum
of its sentences' counts) is at most `max_tokens + overlap` — hence at
most `max_tokens` whenever `overlap = 0`. -/
theorem claim1_budget (wt st : String → List String) (text : String) (M ov : Nat)
    (hM : 1 ≤ M)
    (hs : ∀ sent ∈ st text, strip sent ≠ "" → tokCount wt (strip sent) ≤ M) :
    ∀ b ∈ chunkCore wt M ov (st text), sumTC wt b ≤ M + ov := by
  intro b hb
  obtain ⟨h1, h2, h3⟩ :=
    chunkLoopB_budget wt M ov (st text) [] [] 0 hs rfl (by omega) (by simp)
  unfold chunkCore at hb
  by_cases hc : (chunkLoopB wt M ov (st text) [] [] 0).2.1 = []
  · rw [if_neg (not_not_intro hc)] at hb
    exact h1 b hb
  · rw [if_pos hc] at hb
    rcases List.mem_append.mp hb with h | h
    · exact h1 b h
    · have hbc : b = (chunkLoopB wt M ov (st text) [] [] 0).2.1 := by simpa using h
      rw [hbc, ← h2]
      exact h3

/-- Witness for C1 at a concrete instance (`max_tokens = 10`, `overlap = 0`,
two four-token sentences). -/
theorem claim1_budget_witness :
    (1 ≤ 10) ∧
    (∀ sent ∈ segTwoShort "doc", strip sent ≠ "" → tokCount tokPerChar (strip sent) ≤ 10) ∧
    (∀ b ∈ chunkCore tokPerChar 10 0 (segTwoShort "doc"), sumTC tokPerChar b ≤ 10 + 0) :=
  ⟨by decide, by decide,
    claim1_budget tokPerChar segTwoShort "doc" 10 0 (by decide) (by decide)⟩

/-- Counterexample to C1 as stated: with `max_tokens = 10` and
`overlap = 8`, sentences of 6, 7 and 1 tokens (each at most 10) produce a
middle chunk of 13 tokens. -/
theorem claim1_counterexample :
    ((segCex1 "doc").map fun s => tokCount tokPerChar (strip s)) = [6, 7, 1] ∧
    chunkCore tokPerChar 10 8 (segCex1 "doc") =
      [["aaaaaa"], ["aaaaaa", "bbbbbbb"], ["bbbbbbb", "c"]] ∧
    sumTC tokPerChar ["aaaaaa", "bbbbbbb"] = 13 := by
  refine ⟨by decide, by decide, by decide⟩

/-- C2 (amended): when `overlap = 0`, any sentence whose token count alone
exceeds `max_tokens` is placed into a chunk containing no other sentence. -/
theorem claim2_oversized_alone (wt st : String → List String) (text : String) (M : Nat)
    (b : List String) (hb : b ∈ chunkCore wt M 0 (st text))
    (s : String) (hs : s ∈ b) (hover : M < tokCount wt s) : b = [s] := by
  obtain ⟨h1, h2⟩ := chunkLoopB_oversize wt M (st text) [] [] 0 rfl
    (by intro x hx; simp at hx) (by intro b hb; simp at hb)
  unfold chunkCore at hb
  by_cases hc : (chunkLoopB wt M 0 (st text) [] [] 0).2.1 = []
  · rw [if_neg (not_not_intro hc)] at hb
    exact h1 b hb s hs hover
  · rw [if_pos hc] at hb
    rcases List.mem_append.mp hb with h | h
    · exact h1 b h s hs hover
    · have hbc : b = (chunkLoopB wt M 0 (st text) [] [] 0).2.1 := by simpa using h
      subst hbc
      exact h2 s hs hover

/-- Witness for C2 at a concrete instance: one four-token sentence with
`max_tokens = 3`, `overlap = 0` sits alone in its chunk. -/
theorem claim2_oversized_alone_witness :
    ["aaaa"] ∈ chunkCore tokPerChar 3 0 (segOneBig "doc") ∧
    "aaaa" ∈ ["aaaa"] ∧ 3 < tokCount tokPerChar "aaaa" ∧ ["aaaa"] = ["aaaa"] :=
  ⟨by decide, by decide, by decide,
    claim2_oversized_alone tokPerChar segOneBig "doc" 3 ["aaaa"] (by decide)
      "aaaa" (by decide) (by decide)⟩

/-- Counterexample to C2 as stated: with `overlap = 8 > 0`, the chunk that
holds the oversized 20-token sentence also carries the previous 6-token
sentence, so the oversized sentence is not alone. -/
theorem claim2_counterexample :
    10 < tokCount tokPerChar bigSent ∧
    chunkCore tokPerChar 10 8 (segCex2 "doc") =
      [["aaaaaa"], ["aaaaaa", bigSent]] ∧
    ["aaaaaa", bigSent] ≠ [bigSent] := by
  refine ⟨by decide, by decide, by decide⟩

/-- When every sentence is blank after stripping, the loop does nothing. -/
theorem chunkLoopS_all_blank (wt : String → List String) (M ov : Nat) :
    ∀ (l : List String), filteredTrim l = [] →
      ∀ (ch cur : List String) (tot : Nat),
        chunkLoopS wt M ov l ch cur tot = (ch, cur, tot) := by
  intro l
  induction l with
  | nil => intro _ ch cur tot; rfl
  | cons sent rest ih =>
    intro h ch cur tot
    simp only [filteredTrim] at h
    by_cases hb : strip sent = ""
    · rw [if_pos hb] at h
      simp only [chunkLoopS]
      rw [if_pos hb]
      exact ih h ch cur tot
    · rw [if_neg hb] at h
      exact absurd h (by simp)

/-- Segmenter returning no sentences at all. -/
def segEmpty (_ : String) : List String := []

/-- Segmenter returning a single blank sentence. -/
def segBlank (_ : String) : List String := [" "]

/-- C3 (amended): if segmentation returns an empty list, the result is the
whole document as a single chunk with count 1; if it returns a non-empty
list whose sentences are all blank after stripping, the result is an empty
chunk list with count 0. -/
theorem claim3_empty_segmentation (sent_tok word_tok : String → List String)
    (text : String) (M ov : Nat) :
    (sent_tok text = [] → chunkTry sent_tok word_tok text M ov = ⟨[text], 1⟩) ∧
    (sent_tok text ≠ [] → filteredTrim (sent_tok text) = [] →
      chunkTry sent_tok word_tok text M ov = ⟨[], 0⟩) := by
  constructor
  · intro h
    unfold chunkTry
    rw [if_pos h]
  · intro h hblank
    unfold chunkTry
    rw [if_neg h, chunkLoopS_all_blank word_tok M ov (sent_tok text) hblank [] [] 0]
    simp

/-- Witness for C3: both branches at concrete adapters. -/
theorem claim3_empty_segmentation_witness :
    chunkTry segEmpty tokPerChar "x" 300 50 = ⟨["x"], 1⟩ ∧
    chunkTry segBlank tokPerChar "x" 300 50 = ⟨[], 0⟩ :=
  ⟨(claim3_empty_segmentation segEmpty tokPerChar "x" 300 50).1 rfl,
   (claim3_empty_segmentation segBlank tokPerChar "x" 300 50).2 (by decide) (by decide)⟩

/-- Counterexample to C3 as stated: a non-empty document whose segmenter
returns one blank-after-strip sentence yields an empty chunk list with
count 0, not the whole document with count 1. -/
theorem claim3_counterexample :
    "x" ≠ "" ∧ segBlank "x" ≠ [] ∧ filteredTrim (segBlank "x") = [] ∧
    chunkTry segBlank tokPerChar "x" 300 50 = ⟨[], 0⟩ ∧
    chunkTry segBlank tokPerChar "x" 300 50 ≠ ⟨["x"], 1⟩ := by
  refine ⟨by decide, by decide, by decide, by decide, by decide⟩

/-- C4: any failure raised inside the body — segmentation or any
token-count call, at any step — is not propagated: the operation returns
the single whole-document chunk with count 1. -/
theorem claim4_degradation (sent_tok word_tok : String → Except Unit (List String))
    (text : String) (M ov : Nat) (e : Unit)
    (h : chunkBodyE sent_tok word_tok text M ov = .error e) :
    chunk sent_tok word_tok text M ov = ⟨[text], 1⟩ := by
  unfold chunk
  rw [h]

/-- Segmenter for the C4 witness: two sentences, no failure. -/
def segTwoSentE (_ : String) : Except Unit (List String) := .ok ["aaa", "bb"]

/-- Token counter that fails on the second sentence only: the failure
happens mid-loop, after one sentence was already processed. -/
def wordFailBB (s : String) : Except Unit (List String) :=
  if s = "bb" then .error () else .ok (List.replicate s.length "x")

/-- Witness for C4: a mid-loop token-count failure discards all partial
progress and returns the whole document. -/
theorem claim4_degradation_witness :
    chunkBodyE segTwoSentE wordFailBB "doc" 300 50 = .error () ∧
    chunk segTwoSentE wordFailBB "doc" 300 50 = ⟨["doc"], 1⟩ :=
  ⟨rfl, claim4_degradation segTwoSentE wordFailBB "doc" 300 50 () rfl⟩

/-- C9: the operation is a pure function of the document, the two numeric
parameters and the adapters' input-output behaviour: extensionally equal
adapters yield identical responses, and no state survives an invocation in
the model. -/
theorem claim9_pure (st1 st2 wt1 wt2 : String → Except Unit (List String))
    (text : String) (M ov : Nat)
    (hs : ∀ t, st1 t = st2 t) (hw : ∀ s, wt1 s = wt2 s) :
    chunk st1 wt1 text M ov = chunk st2 wt2 text M ov := by
  have h1 : st1 = st2 := funext hs
  have h2 : wt1 = wt2 := funext hw
  rw [h1, h2]

/-- Witness for C9 at concrete adapters. -/
theorem claim9_pure_witness :
    chunk segTwoSentE wordFailBB "doc" 300 50 =
      chunk segTwoSentE wordFailBB "doc" 300 50 :=
  claim9_pure segTwoSentE segTwoSentE wordFailBB wordFailBB "doc" 300 50
    (fun _ => rfl) (fun _ => rfl)

/-- Appending one element to a chain stays a chain when the last element
relates to it. -/
theorem chain_concat_of_last {α : Type} {R : α → α → Prop}
    (l : List α) (x : α) (hl : List.Chain' R l)
    (hlink : ∀ b, l.getLast? = some b → R b x) : List.Chain' R (l ++ [x]) := by
  rw [List.chain'_append]
  refine ⟨hl, List.chain'_singleton x, ?_⟩
  intro a ha y hy
  have hyx : x = y := by simpa using hy
  subst hyx
  exact hlink a (by simpa using ha)

/-- Instrumented-loop invariant: the new parts of the emitted chunks,
followed by the new part of the live buffer, accumulate exactly the
processed non-blank stripped sentences in order. -/
theorem chunkLoopI_news (wt : String → List String) (M ov : Nat) :
    ∀ (l : List String) (ch : List (List String × List String))
      (cur : List String × List String) (tot : Nat),
      ((chunkLoopI wt M ov l ch cur tot).1.map Prod.snd).flatten ++
          (chunkLoopI wt M ov l ch cur tot).2.1.2 =
        (ch.map Prod.snd).flatten ++ cur.2 ++ filteredTrim l := by
  intro l
  induction l with
  | nil =>
    intro ch cur tot
    simp [chunkLoopI, filteredTrim]
  | cons sent rest ih =>
    intro ch cur tot
    simp only [chunkLoopI, filteredTrim]
    by_cases hb : strip sent = ""
    · rw [if_pos hb, if_pos hb]
      exact ih ch cur tot
    · rw [if_neg hb, if_neg hb]
      by_cases hf : tot + (wt (strip sent)).length > M ∧ glue cur ≠ []
      · rw [if_pos hf]
        rw [ih (ch ++ [cur]) ((resetBuf wt ov (glue cur)).1, [strip sent])
          ((resetBuf wt ov (glue cur)).2 + (wt (strip sent)).length)]
        simp [List.append_assoc]
      · rw [if_neg hf]
        rw [ih ch (cur.1, cur.2 ++ [strip sent]) (tot + (wt (strip sent)).length)]
        simp [List.append_assoc]

/-- Instrumented-loop invariant for the carried parts: the first chunk
carries nothing, each chunk's carry is a suffix of the previous chunk, and
the live buffer's carry is a suffix of the last emitted chunk. -/
theorem chunkLoopI_carry (wt : String → List String) (M ov : Nat) :
    ∀ (l : List String) (ch : List (List String × List String))
      (cur : List String × List String) (tot : Nat),
      (ch = [] → cur.1 = []) →
      (∀ p, ch.head? = some p → p.1 = []) →
      List.Chain' (fun p q => q.1 <:+ glue p) ch →
      (∀ p, ch.getLast? = some p → cur.1 <:+ glue p) →
      (∀ p, (chunkLoopI wt M ov l ch cur tot).1.head? = some p → p.1 = []) ∧
      List.Chain' (fun p q => q.1 <:+ glue p) (chunkLoopI wt M ov l ch cur tot).1 ∧
      ((chunkLoopI wt M ov l ch cur tot).1 = [] →
        (chunkLoopI wt M ov l ch cur tot).2.1.1 = []) ∧
      (∀ p, (chunkLoopI wt M ov l ch cur tot).1.getLast? = some p →
        (chunkLoopI wt M ov l ch cur tot).2.1.1 <:+ glue p) := by
  intro l
  induction l with
  | nil =>
    intro ch cur tot h0 hhead hchain hlink
    exact ⟨hhead, hchain, h0, hlink⟩
  | cons sent rest ih =>
    intro ch cur tot h0 hhead hchain hlink
    simp only [chunkLoopI]
    by_cases hb : strip sent = ""
    · rw [if_pos hb]
      exact ih ch cur tot h0 hhead hchain hlink
    · rw [if_neg hb]
      by_cases hf : tot + (wt (strip sent)).length > M ∧ glue cur ≠ []
      · rw [if_pos hf]
        obtain ⟨_, hr2, _, _⟩ := resetBuf_spec wt ov (glue cur)
        apply ih
        · intro habs
          exact absurd habs (by simp)
        · intro p hp
          cases ch with
          | nil =>
            have hpc : cur = p := by simpa using hp
            rw [← hpc]
            exact h0 rfl
          | cons q qs =>
            have hpq : q = p := by simpa using hp
            rw [← hpq]
            exact hhead q rfl
        · exact chain_concat_of_last ch cur hchain hlink
        · intro p hp
          have hpc : p = cur := by
            rw [List.getLast?_concat] at hp
            exact (Option.some_inj.mp hp).symm
          rw [hpc]
          exact hr2
      · rw [if_neg hf]
        exact ih ch (cur.1, cur.2 ++ [strip sent]) (tot + (wt (strip sent)).length)
          h0 hhead hchain hlink

/-- C6: for a document with at least one non-blank sentence, each chunk
splits into a carried prefix (empty for the first chunk, a suffix of the
previous chunk for the others) and a new part, and the new parts
concatenate to exactly the segmenter's non-blank stripped sentences, each
exactly once, in original order. -/
theorem claim6_coverage (wt st : String → List String) (text : String) (M ov : Nat)
    (h : filteredTrim (st text) ≠ []) :
    ∃ parts : List (List String × List String),
      chunkCore wt M ov (st text) = parts.map glue ∧
      (∀ p, parts.head? = some p → p.1 = []) ∧
      List.Chain' (fun p q => q.1 <:+ glue p) parts ∧
      (parts.map Prod.snd).flatten = filteredTrim (st text) := by
  have herase := chunkLoopI_glue wt M ov (st text) [] ([], []) 0
  have hnews := chunkLoopI_news wt M ov (st text) [] ([], []) 0
  obtain ⟨hhead, hchain, h0, hlink⟩ := chunkLoopI_carry wt M ov (st text) [] ([], []) 0
    (fun _ => rfl) (by intro p hp; simp at hp) List.chain'_nil (by intro p hp; simp at hp)
  simp only [List.map_nil] at herase
  simp only [List.map_nil, List.flatten_nil, List.nil_append] at hnews
  set r := chunkLoopI wt M ov (st text) [] ([], []) 0 with hr
  have hglue : glue ([], ([] : List String)) = [] := rfl
  rw [hglue] at herase
  by_cases hc : glue r.2.1 = []
  · refine ⟨r.1, ?_, hhead, hchain, ?_⟩
    · unfold chunkCore
      rw [herase]
      simp [hc]
    · have h2 : r.2.1.2 = [] := by
        have := hc
        unfold glue at this
        exact (List.append_eq_nil.mp this).2
      rw [h2, List.append_nil] at hnews
      exact hnews
  · refine ⟨r.1 ++ [r.2.1], ?_, ?_, ?_, ?_⟩
    · unfold chunkCore
      rw [herase]
      simp [hc, List.map_append]
    · intro p hp
      cases hq : r.1 with
      | nil =>
        rw [hq] at hp
        have hpc : r.2.1 = p := by simpa using hp
        rw [← hpc]
        exact h0 hq
      | cons q qs =>
        rw [hq] at hp
        have hpq : q = p := by simpa using hp
        rw [← hpq]
        exact hhead q (by rw [hq]; rfl)
    · exact chain_concat_of_last r.1 r.2.1 hchain hlink
    · rw [List.map_append, List.flatten_append]
      simpa using hnews

/-- Witness for C6 at a concrete instance. -/
theorem claim6_coverage_witness :
    filteredTrim (segTwoShort "doc") ≠ [] ∧
    (∃ parts : List (List String × List String),
      chunkCore tokPerChar 10 0 (segTwoShort "doc") = parts.map glue ∧
      (∀ p, parts.head? = some p → p.1 = []) ∧
      List.Chain' (fun p q => q.1 <:+ glue p) parts ∧
      (parts.map Prod.snd).flatten = filteredTrim (segTwoShort "doc")) :=
  ⟨by decide, claim6_coverage tokPerChar segTwoShort "doc" 10 0 (by decide)⟩

/-- Condition on consecutive carry/new parts: the later part's carried run
is a suffix of the earlier chunk, its token-count sum is at most
`overlap`, and it is empty when `overlap = 0`.  Unlike an existential
decomposition of the bare chunks, this speaks about the pinned carry of
the part itself. -/
def carryOk (word_tok : String → List String) (overlap : Nat)
    (p q : List String × List String) : Prop :=
  q.1 <:+ glue p ∧ sumTC word_tok q.1 ≤ overlap ∧ (overlap = 0 → q.1 = [])

/-- Instrumented-loop invariant: every recorded carry (of emitted chunks
and of the live buffer) sums to at most `overlap` and is empty when
`overlap = 0`. -/
theorem chunkLoopI_carry_bound (wt : String → List String) (M ov : Nat) :
    ∀ (l : List String) (ch : List (List String × List String))
      (cur : List String × List String) (tot : Nat),
      (∀ p ∈ ch, sumTC wt p.1 ≤ ov ∧ (ov = 0 → p.1 = [])) →
      (sumTC wt cur.1 ≤ ov ∧ (ov = 0 → cur.1 = [])) →
      (∀ p ∈ (chunkLoopI wt M ov l ch cur tot).1,
          sumTC wt p.1 ≤ ov ∧ (ov = 0 → p.1 = [])) ∧
      (sumTC wt (chunkLoopI wt M ov l ch cur tot).2.1.1 ≤ ov ∧
        (ov = 0 → (chunkLoopI wt M ov l ch cur tot).2.1.1 = [])) := by
  intro l
  induction l with
  | nil =>
    intro ch cur tot hch hcur
    exact ⟨hch, hcur⟩
  | cons sent rest ih =>
    intro ch cur tot hch hcur
    simp only [chunkLoopI]
    by_cases hb : strip sent = ""
    · rw [if_pos hb]
      exact ih ch cur tot hch hcur
    · rw [if_neg hb]
      by_cases hf : tot + (wt (strip sent)).length > M ∧ glue cur ≠ []
      · rw [if_pos hf]
        obtain ⟨hr1, _, hr3, hr4⟩ := resetBuf_spec wt ov (glue cur)
        apply ih
        · intro p hp
          rcases List.mem_append.mp hp with h | h
          · exact hch p h
          · have hpc : p = cur := by simpa using h
            rw [hpc]
            exact hcur
        · exact ⟨by rw [← hr1]; exact hr3, hr4⟩
      · rw [if_neg hf]
        exact ih ch (cur.1, cur.2 ++ [strip sent]) (tot + (wt (strip sent)).length) hch hcur

/-- A chain strengthens to a finer relation when every element satisfies a
property that, together with the coarse relation, implies the fine one. -/
theorem chain_and_of_mem {α : Type} {S R : α → α → Prop} {P : α → Prop}
    (himp : ∀ a b, S a b → P b → R a b) :
    ∀ (l : List α), List.Chain' S l → (∀ x ∈ l, P x) → List.Chain' R l := by
  intro l
  induction l with
  | nil =>
    intro _ _
    exact List.chain'_nil
  | cons a t ih =>
    intro hch hm
    cases t with
    | nil => exact List.chain'_singleton a
    | cons b t2 =>
      rw [List.chain'_cons] at hch ⊢
      refine ⟨himp a b hch.1 (hm b (List.mem_cons_of_mem _ (List.mem_cons_self _ _))), ?_⟩
      exact ih hch.2 (fun x hx => hm x (List.mem_cons_of_mem _ hx))

/-- In a chain whose relation forces `P` on its right argument, `P` holds
of every element once it holds of the head. -/
theorem chain_head_prop {α : Type} {R : α → α → Prop} {P : α → Prop}
    (hR : ∀ a b, R a b → P b) :
    ∀ (l : List α), List.Chain' R l → (∀ p, l.head? = some p → P p) →
      ∀ x ∈ l, P x := by
  intro l
  induction l with
  | nil =>
    intro _ _ x hx
    simp at hx
  | cons a t ih =>
    intro hch hh x hx
    rcases List.mem_cons.mp hx with h | h
    · rw [h]
      exact hh a rfl
    · cases t with
      | nil => simp at h
      | cons b t2 =>
        rw [List.chain'_cons] at hch
        refine ih hch.2 ?_ x h
        intro p hp
        have hpb : b = p := by simpa using hp
        rw [← hpb]
        exact hR a b hch.1

/-- C5: the chunks decompose into carry/new parts — glued back they are
exactly the chunks, the first carry is empty, and the new parts
concatenate to exactly the non-blank stripped sentence sequence (so the
decomposition strips precisely the duplicated material) — such that every
chunk after the first begins with its carried run: a suffix of the
previous chunk kept in original order, with total token count at most
`overlap`, and empty when `overlap = 0`.  Consequently, when
`overlap = 0` the chunks themselves concatenate to the sentence sequence,
each sentence appearing exactly once, so consecutive chunks share no
sentences. -/
theorem claim5_overlap_bound (wt st : String → List String)
    (text : String) (M ov : Nat) :
    ∃ parts : List (List String × List String),
      chunkCore wt M ov (st text) = parts.map glue ∧
      (∀ p, parts.head? = some p → p.1 = []) ∧
      List.Chain' (carryOk wt ov) parts ∧
      (parts.map Prod.snd).flatten = filteredTrim (st text) ∧
      (ov = 0 → (chunkCore wt M ov (st text)).flatten = filteredTrim (st text)) := by
  have herase := chunkLoopI_glue wt M ov (st text) [] ([], []) 0
  have hnews := chunkLoopI_news wt M ov (st text) [] ([], []) 0
  obtain ⟨hhead, hchain, h0, hlink⟩ := chunkLoopI_carry wt M ov (st text) [] ([], []) 0
    (fun _ => rfl) (by intro p hp; simp at hp) List.chain'_nil (by intro p hp; simp at hp)
  obtain ⟨hbAll, hbCur⟩ := chunkLoopI_carry_bound wt M ov (st text) [] ([], []) 0
    (by intro p hp; simp at hp) ⟨by simp [sumTC], fun _ => rfl⟩
  simp only [List.map_nil] at herase
  simp only [List.map_nil, List.flatten_nil, List.nil_append] at hnews
  set r := chunkLoopI wt M ov (st text) [] ([], []) 0 with hr
  have hglue : glue ([], ([] : List String)) = [] := rfl
  rw [hglue] at herase
  have hchainR : List.Chain' (carryOk wt ov) r.1 :=
    chain_and_of_mem (fun a b hs hb => ⟨hs, hb.1, hb.2⟩) r.1 hchain hbAll
  by_cases hc : glue r.2.1 = []
  · have h2 : r.2.1.2 = [] := by
      have hge := hc
      unfold glue at hge
      exact (List.append_eq_nil.mp hge).2
    have hnews2 : (r.1.map Prod.snd).flatten = filteredTrim (st text) := by
      rw [h2, List.append_nil] at hnews
      exact hnews
    have hcore : chunkCore wt M ov (st text) = r.1.map glue := by
      unfold chunkCore
      rw [herase]
      simp [hc]
    refine ⟨r.1, hcore, hhead, hchainR, hnews2, ?_⟩
    intro hov
    have hallP : ∀ p ∈ r.1, p.1 = [] :=
      chain_head_prop (fun a b hr2 => hr2.2.2 hov) r.1 hchainR hhead
    have hmapeq : r.1.map glue = r.1.map Prod.snd := by
      apply List.map_congr_left
      intro p hp
      unfold glue
      rw [hallP p hp]
      rfl
    rw [hcore, hmapeq]
    exact hnews2
  · have hlinkR : ∀ b, r.1.getLast? = some b → carryOk wt ov b r.2.1 :=
      fun b hb => ⟨hlink b hb, hbCur.1, hbCur.2⟩
    have hchainFull : List.Chain' (carryOk wt ov) (r.1 ++ [r.2.1]) :=
      chain_concat_of_last r.1 r.2.1 hchainR hlinkR
    have hheadFull : ∀ p, (r.1 ++ [r.2.1]).head? = some p → p.1 = [] := by
      intro p hp
      cases hq : r.1 with
      | nil =>
        rw [hq] at hp
        have hpc : r.2.1 = p := by simpa using hp
        rw [← hpc]
        exact h0 hq
      | cons q qs =>
        rw [hq] at hp
        have hpq : q = p := by simpa using hp
        rw [← hpq]
        exact hhead q (by rw [hq]; rfl)
    have hnewsFull : ((r.1 ++ [r.2.1]).map Prod.snd).flatten = filteredTrim (st text) := by
      rw [List.map_append, List.flatten_append]
      simpa using hnews
    have hcore : chunkCore wt M ov (st text) = (r.1 ++ [r.2.1]).map glue := by
      unfold chunkCore
      rw [herase]
      simp [hc, List.map_append]
    refine ⟨r.1 ++ [r.2.1], hcore, hheadFull, hchainFull, hnewsFull, ?_⟩
    intro hov
    have hallP : ∀ p ∈ r.1 ++ [r.2.1], p.1 = [] :=
      chain_head_prop (fun a b hr2 => hr2.2.2 hov) _ hchainFull hheadFull
    have hmapeq : (r.1 ++ [r.2.1]).map glue = (r.1 ++ [r.2.1]).map Prod.snd := by
      apply List.map_congr_left
      intro p hp
      unfold glue
      rw [hallP p hp]
      rfl
    rw [hcore, hmapeq]
    exact hnewsFull

/-- Loop invariant: every sentence stored in a buffer or an emitted chunk
comes from the given pool `S` containing the processed sentences. -/
theorem chunkLoopB_mem (wt : String → List String) (M ov : Nat) (S : List String) :
    ∀ (l : List String) (ch : List (List String)) (cur : List String) (tot : Nat),
      (∀ s ∈ filteredTrim l, s ∈ S) →
      (∀ s ∈ cur, s ∈ S) →
      (∀ b ∈ ch, ∀ s ∈ b, s ∈ S) →
      (∀ b ∈ (chunkLoopB wt M ov l ch cur tot).1, ∀ s ∈ b, s ∈ S) ∧
      (∀ s ∈ (chunkLoopB wt M ov l ch cur tot).2.1, s ∈ S) := by
  intro l
  induction l with
  | nil =>
    intro ch cur tot _ hcur hch
    exact ⟨hch, hcur⟩
  | cons sent rest ih =>
    intro ch cur tot hl hcur hch
    simp only [chunkLoopB]
    by_cases hb : strip sent = ""
    · rw [if_pos hb]
      refine ih ch cur tot ?_ hcur hch
      intro s hs
      apply hl
      simp only [filteredTrim]
      rw [if_pos hb]
      exact hs
    · rw [if_neg hb]
      have hmemS : strip sent ∈ S := by
        apply hl
        simp only [filteredTrim]
        rw [if_neg hb]
        exact List.mem_cons_self _ _
      have hrest : ∀ s ∈ filteredTrim rest, s ∈ S := by
        intro s hs
        apply hl
        simp only [filteredTrim]
        rw [if_neg hb]
        exact List.mem_cons_of_mem _ hs
      by_cases hf : tot + (wt (strip sent)).length > M ∧ cur ≠ []
      · rw [if_pos hf]
        refine ih (ch ++ [cur]) _ _ hrest ?_ ?_
        · intro s hs
          rcases List.mem_append.mp hs with h | h
          · exact hcur s ((resetBuf_spec wt ov cur).2.1.subset h)
          · have hss : s = strip sent := by simpa using h
            rw [hss]
            exact hmemS
        · intro b hbm s hs
          rcases List.mem_append.mp hbm with h | h
          · exact hch b h s hs
          · have hbc : b = cur := by simpa using h
            rw [hbc] at hs
            exact hcur s hs
      · rw [if_neg hf]
        refine ih ch _ _ hrest ?_ hch
        intro s hs
        rcases List.mem_append.mp hs with h | h
        · exact hcur s h
        · have hss : s = strip sent := by simpa using h
          rw [hss]
          exact hmemS

/-- Loop invariant: emitted chunks are never empty buffers. -/
theorem chunkLoopB_ne_nil (wt : String → List String) (M ov : Nat) :
    ∀ (l : List String) (ch : List (List String)) (cur : List String) (tot : Nat),
      (∀ b ∈ ch, b ≠ []) →
      ∀ b ∈ (chunkLoopB wt M ov l ch cur tot).1, b ≠ [] := by
  intro l
  induction l with
  | nil =>
    intro ch cur tot hch
    exact hch
  | cons sent rest ih =>
    intro ch cur tot hch
    simp only [chunkLoopB]
    by_cases hb : strip sent = ""
    · rw [if_pos hb]
      exact ih ch cur tot hch
    · rw [if_neg hb]
      by_cases hf : tot + (wt (strip sent)).length > M ∧ cur ≠ []
      · rw [if_pos hf]
        refine ih _ _ _ ?_
        intro b hbm
        rcases List.mem_append.mp hbm with h | h
        · exact hch b h
        · have hbc : b = cur := by simpa using h
          rw [hbc]
          exact hf.2
      · rw [if_neg hf]
        exact ih _ _ _ hch

/-- Every chunk of `chunkCore` is a non-empty buffer of sentences drawn
from the non-blank stripped segmentation. -/
theorem chunkCore_mem (wt : String → List String) (M ov : Nat) (l : List String) :
    ∀ b ∈ chunkCore wt M ov l, b ≠ [] ∧ ∀ s ∈ b, s ∈ filteredTrim l := by
  intro b hb
  obtain ⟨hmem1, hmem2⟩ := chunkLoopB_mem wt M ov (filteredTrim l) l [] [] 0
    (fun s hs => hs) (by intro s hs; simp at hs) (by intro b hb; simp at hb)
  have hne := chunkLoopB_ne_nil wt M ov l [] [] 0 (by intro b hb; simp at hb)
  unfold chunkCore at hb
  by_cases hc : (chunkLoopB wt M ov l [] [] 0).2.1 = []
  · rw [if_neg (not_not_intro hc)] at hb
    exact ⟨hne b hb, hmem1 b hb⟩
  · rw [if_pos hc] at hb
    rcases List.mem_append.mp hb with h | h
    · exact ⟨hne b h, hmem1 b h⟩
    · have hbc : b = (chunkLoopB wt M ov l [] [] 0).2.1 := by simpa using h
      rw [hbc]
      exact ⟨hc, hmem2⟩

/-- C7: each returned chunk text is its buffer's sentences joined by
single spaces; every sentence appearing in any chunk is a non-blank
stripped sentence from the segmentation (so blank sentences appear in no
chunk); and blank sentences contribute nothing to any budget — sentence
lists with identical non-blank stripped sentences chunk identically. -/
theorem claim7_join_and_blanks (wt st : String → List String) (text : String)
    (M ov : Nat) (l1 l2 : List String)
    (hseg : st text ≠ []) (hft : filteredTrim l1 = filteredTrim l2) :
    (chunkTry st wt text M ov).chunks =
      (chunkCore wt M ov (st text)).map (String.intercalate " ") ∧
    (∀ b ∈ chunkCore wt M ov (st text), ∀ s ∈ b, s ∈ filteredTrim (st text)) ∧
    chunkCore wt M ov l1 = chunkCore wt M ov l2 := by
  refine ⟨?_, ?_, ?_⟩
  · rw [chunkTry_eq_core st wt text M ov hseg]
  · intro b hb
    exact (chunkCore_mem wt M ov (st text) b hb).2
  · unfold chunkCore
    rw [chunkLoopB_eq_trimmed wt M ov l1, chunkLoopB_eq_trimmed wt M ov l2, hft]

/-- Witness for C7 at concrete inputs: a leading blank sentence changes
nothing. -/
theorem claim7_join_and_blanks_witness :
    segTwoShort "doc" ≠ [] ∧
    filteredTrim [" ", "aaaa", "bbbb"] = filteredTrim ["aaaa", "bbbb"] ∧
    ((chunkTry segTwoShort tokPerChar "doc" 10 0).chunks =
       (chunkCore tokPerChar 10 0 (segTwoShort "doc")).map (String.intercalate " ") ∧
     (∀ b ∈ chunkCore tokPerChar 10 0 (segTwoShort "doc"), ∀ s ∈ b,
        s ∈ filteredTrim (segTwoShort "doc")) ∧
     chunkCore tokPerChar 10 0 [" ", "aaaa", "bbbb"] =
       chunkCore tokPerChar 10 0 ["aaaa", "bbbb"]) :=
  ⟨by decide, by decide,
   claim7_join_and_blanks tokPerChar segTwoShort "doc" 10 0
     [" ", "aaaa", "bbbb"] ["aaaa", "bbbb"] (by decide) (by decide)⟩

/-- Sentences surviving the blank filter are non-blank. -/
theorem filteredTrim_ne_blank : ∀ (l : List String), ∀ s ∈ filteredTrim l, s ≠ "" := by
  intro l
  induction l with
  | nil =>
    intro s hs
    simp [filteredTrim] at hs
  | cons sent rest ih =>
    intro s hs
    simp only [filteredTrim] at hs
    by_cases hb : strip sent = ""
    · rw [if_pos hb] at hs
      exact ih s hs
    · rw [if_neg hb] at hs
      rcases List.mem_cons.mp hs with h | h
      · rw [h]
        exact hb
      · exact ih s h

/-- The helper of `String.intercalate` only appends to its accumulator. -/
theorem intercalate_go_acc (sep : String) :
    ∀ (as : List String) (acc : String),
      ∃ t, String.intercalate.go acc sep as = acc ++ t := by
  intro as
  induction as with
  | nil =>
    intro acc
    exact ⟨"", (String.append_empty acc).symm⟩
  | cons a as ih =>
    intro acc
    obtain ⟨t, ht⟩ := ih (acc ++ sep ++ a)
    refine ⟨sep ++ a ++ t, ?_⟩
    simp only [String.intercalate.go]
    rw [ht]
    simp [String.append_assoc]

/-- A string's length is zero exactly when it is empty. -/
theorem string_length_zero_iff (s : String) : s.length = 0 ↔ s = "" := by
  constructor
  · intro h
    cases s with
    | mk data =>
      have hd : data = [] := List.length_eq_zero.mp h
      rw [hd]
  · intro h
    rw [h]
    rfl

/-- Joining a non-empty list of non-empty strings with spaces is non-empty. -/
theorem intercalate_space_ne_empty (b : List String) (hb : b ≠ [])
    (hel : ∀ s ∈ b, s ≠ "") : String.intercalate " " b ≠ "" := by
  cases b with
  | nil => exact absurd rfl hb
  | cons x xs =>
    obtain ⟨t, ht⟩ := intercalate_go_acc " " xs x
    have hx : x ≠ "" := hel x (List.mem_cons_self _ _)
    intro hcontra
    have h1 : String.intercalate " " (x :: xs) = x ++ t := by
      simp only [String.intercalate]
      exact ht
    rw [h1] at hcontra
    have h2 : (x ++ t).length = 0 := by
      rw [hcontra]
      rfl
    rw [String.length_append] at h2
    exact hx (string_length_zero_iff x |>.mp (by omega))

/-- The live buffer is non-empty once a non-blank sentence has been seen. -/
theorem chunkLoopB_cur_ne (wt : String → List String) (M ov : Nat) :
    ∀ (l : List String) (ch : List (List String)) (cur : List String) (tot : Nat),
      (cur ≠ [] ∨ filteredTrim l ≠ []) →
      (chunkLoopB wt M ov l ch cur tot).2.1 ≠ [] := by
  intro l
  induction l with
  | nil =>
    intro ch cur tot h
    rcases h with h | h
    · exact h
    · exact absurd rfl h
  | cons sent rest ih =>
    intro ch cur tot h
    simp only [chunkLoopB]
    by_cases hb : strip sent = ""
    · rw [if_pos hb]
      refine ih ch cur tot ?_
      rcases h with h | h
      · exact Or.inl h
      · refine Or.inr ?_
        simp only [filteredTrim] at h
        rw [if_pos hb] at h
        exact h
    · rw [if_neg hb]
      by_cases hf : tot + (wt (strip sent)).length > M ∧ cur ≠ []
      · rw [if_pos hf]
        exact ih _ _ _ (Or.inl (by simp))
      · rw [if_neg hf]
        exact ih _ _ _ (Or.inl (by simp))

/-- C10: when segmentation yields at least one non-blank sentence, the
returned chunks list is non-empty and every chunk text is a non-empty
string. -/
theorem claim10_nonempty (wt st : String → List String) (text : String) (M ov : Nat)
    (h : filteredTrim (st text) ≠ []) :
    (chunkTry st wt text M ov).chunks ≠ [] ∧
    ∀ c ∈ (chunkTry st wt text M ov).chunks, c ≠ "" := by
  have hseg : st text ≠ [] := by
    intro he
    rw [he] at h
    exact h rfl
  rw [chunkTry_eq_core st wt text M ov hseg]
  constructor
  · have hcur := chunkLoopB_cur_ne wt M ov (st text) [] [] 0 (Or.inr h)
    unfold chunkCore
    rw [if_pos hcur]
    simp
  · intro c hc
    simp only [List.mem_map] at hc
    obtain ⟨b, hb, hbc⟩ := hc
    obtain ⟨hbne, hbmem⟩ := chunkCore_mem wt M ov (st text) b hb
    rw [← hbc]
    exact intercalate_space_ne_empty b hbne
      (fun s hs => filteredTrim_ne_blank (st text) s (hbmem s hs))

/-- Witness for C10 at a concrete instance. -/
theorem claim10_nonempty_witness :
    filteredTrim (segTwoShort "doc") ≠ [] ∧
    ((chunkTry segTwoShort tokPerChar "doc" 10 0).chunks ≠ [] ∧
     ∀ c ∈ (chunkTry segTwoShort tokPerChar "doc" 10 0).chunks, c ≠ "") :=
  ⟨by decide, claim10_nonempty tokPerChar segTwoShort "doc" 10 0 (by decide)⟩

/-- Projecting the sentences back out of a cached buffer. -/
theorem map_fst_pair (wt : String → List String) (l : List String) :
    (l.map fun s => (s, (wt s).length)).map Prod.fst = l := by
  induction l with
  | nil => rfl
  | cons x xs ih => simp [ih]

/-- Composed form of `map_fst_pair`, as `simp` normalizes nested maps. -/
theorem map_fst_pair_comp (wt : String → List String) (l : List String) :
    List.map (Prod.fst ∘ fun s => (s, (wt s).length)) l = l := by
  induction l with
  | nil => rfl
  | cons x xs ih => simp [ih]

/-- The cached backward scan agrees with the recomputing one when every
stored count is the sentence's token count. -/
theorem overlapLoopC_eq (wt : String → List String) (ov : Nat) :
    ∀ (rl acc : List String) (cnt : Nat),
      overlapLoopC ov (rl.map fun s => (s, (wt s).length))
          (acc.map fun s => (s, (wt s).length)) cnt =
        ((overlapLoop wt ov rl acc cnt).1.map fun s => (s, (wt s).length),
         (overlapLoop wt ov rl acc cnt).2) := by
  intro rl
  induction rl with
  | nil =>
    intro acc cnt
    rfl
  | cons s rest ih =>
    intro acc cnt
    simp only [List.map_cons, overlapLoopC, overlapLoop]
    by_cases hc : cnt + (wt s).length > ov
    · simp [hc]
    · simp only [hc, if_neg, ite_false]
      simpa using ih (s :: acc) (cnt + (wt s).length)

/-- The cached buffer reset agrees with the recomputing one. -/
theorem resetBufC_eq (wt : String → List String) (ov : Nat) (cur : List String) :
    resetBufC ov (cur.map fun s => (s, (wt s).length)) =
      ((resetBuf wt ov cur).1.map fun s => (s, (wt s).length),
       (resetBuf wt ov cur).2) := by
  unfold resetBufC resetBuf
  by_cases h : ov > 0
  · rw [if_pos h, if_pos h]
    unfold overlapSelect
    have hrev : (cur.map fun s => (s, (wt s).length)).reverse =
        cur.reverse.map fun s => (s, (wt s).length) := by
      simp
    rw [hrev]
    simpa using overlapLoopC_eq wt ov cur.reverse [] 0
  · rw [if_neg h, if_neg h]
    rfl

/-- The cached main loop agrees with the recomputing one. -/
theorem chunkLoopSC_eq (wt : String → List String) (M ov : Nat) :
    ∀ (l ch cur : List String) (tot : Nat),
      chunkLoopSC wt M ov l ch (cur.map fun s => (s, (wt s).length)) tot =
        ((chunkLoopS wt M ov l ch cur tot).1,
         (chunkLoopS wt M ov l ch cur tot).2.1.map fun s => (s, (wt s).length),
         (chunkLoopS wt M ov l ch cur tot).2.2) := by
  intro l
  induction l with
  | nil =>
    intro ch cur tot
    rfl
  | cons sent rest ih =>
    intro ch cur tot
    simp only [chunkLoopSC, chunkLoopS]
    by_cases hb : strip sent = ""
    · rw [if_pos hb, if_pos hb]
      exact ih ch cur tot
    · rw [if_neg hb, if_neg hb]
      by_cases hf : tot + (wt (strip sent)).length > M ∧ cur ≠ []
      · have hf2 : tot + (wt (strip sent)).length > M ∧
            (cur.map fun s => (s, (wt s).length)) ≠ [] :=
          ⟨hf.1, by simpa using hf.2⟩
        rw [if_pos hf2, if_pos hf, map_fst_pair, resetBufC_eq]
        have harg : ((resetBuf wt ov cur).1.map fun s => (s, (wt s).length)) ++
            [(strip sent, (wt (strip sent)).length)] =
            ((resetBuf wt ov cur).1 ++ [strip sent]).map fun s => (s, (wt s).length) := by
          simp
        rw [harg]
        exact ih _ _ _
      · have hf2 : ¬(tot + (wt (strip sent)).length > M ∧
            (cur.map fun s => (s, (wt s).length)) ≠ []) := by
          intro hcon
          exact hf ⟨hcon.1, by simpa using hcon.2⟩
        rw [if_neg hf2, if_neg hf]
        have harg : (cur.map fun s => (s, (wt s).length)) ++
            [(strip sent, (wt (strip sent)).length)] =
            (cur ++ [strip sent]).map fun s => (s, (wt s).length) := by
          simp
        rw [harg]
        exact ih _ _ _

/-- C8: since the adapters are functions (token counting is deterministic
for identical input), the cached variant — which stores each sentence's
count computed in the main pass and reuses it in the backward scan instead
of recomputing it — returns exactly the same response as the implemented
operation, for every document and parameters. -/
theorem claim8_cached_equiv (sent_tok word_tok : String → List String)
    (text : String) (M ov : Nat) :
    chunkTryCached sent_tok word_tok text M ov =
      chunkTry sent_tok word_tok text M ov := by
  unfold chunkTryCached chunkTry
  by_cases h : sent_tok text = []
  · rw [if_pos h, if_pos h]
  · rw [if_neg h, if_neg h]
    have hmain := chunkLoopSC_eq word_tok M ov (sent_tok text) [] [] 0
    simp only [List.map_nil] at hmain
    rw [hmain]
    by_cases hc : (chunkLoopS word_tok M ov (sent_tok text) [] [] 0).2.1 = []
    · simp [hc]
    · simp [hc, map_fst_pair, map_fst_pair_comp]

/-! ### Coherence: the pure model is the non-failure behaviour of `chunk` -/

/-- Bind on a success just applies the continuation. -/
theorem ok_bind {α β : Type} (a : α) (f : α → Except Unit β) :
    (Except.ok a : Except Unit α) >>= f = f a := rfl

/-- Bind on a pure value just applies the continuation. -/
theorem pure_bind_except {α β : Type} (a : α) (f : α → Except Unit β) :
    (pure a : Except Unit α) >>= f = f a := rfl

/-- With a never-failing token counter the fallible scan is the pure scan. -/
theorem overlapLoopE_ok (wt : String → List String) (ov : Nat) :
    ∀ (rl acc : List String) (cnt : Nat),
      overlapLoopE (fun s => .ok (wt s)) ov rl acc cnt =
        .ok (overlapLoop wt ov rl acc cnt) := by
  intro rl
  induction rl with
  | nil =>
    intro acc cnt
    rfl
  | cons s rest ih =>
    intro acc cnt
    simp only [overlapLoopE, overlapLoop, ok_bind]
    by_cases hc : cnt + (wt s).length > ov
    · rw [if_pos hc, if_pos hc]
      rfl
    · rw [if_neg hc, if_neg hc]
      exact ih (s :: acc) (cnt + (wt s).length)

/-- With a never-failing token counter the fallible loop is the pure loop. -/
theorem chunkLoopE_ok (wt : String → List String) (M ov : Nat) :
    ∀ (l ch cur : List String) (tot : Nat),
      chunkLoopE (fun s => .ok (wt s)) M ov l ch cur tot =
        .ok (chunkLoopS wt M ov l ch cur tot) := by
  intro l
  induction l with
  | nil =>
    intro ch cur tot
    rfl
  | cons sent rest ih =>
    intro ch cur tot
    simp only [chunkLoopE, chunkLoopS]
    by_cases hb : strip sent = ""
    · rw [if_pos hb, if_pos hb]
      exact ih ch cur tot
    · rw [if_neg hb, if_neg hb]
      simp only [ok_bind]
      by_cases hf : tot + (wt (strip sent)).length > M ∧ cur ≠ []
      · rw [if_pos hf, if_pos hf]
        by_cases ho : ov > 0
        · have hrb : resetBuf wt ov cur = overlapLoop wt ov cur.reverse [] 0 := by
            unfold resetBuf overlapSelect
            rw [if_pos ho]
          rw [if_pos ho, overlapLoopE_ok wt ov cur.reverse [] 0, hrb]
          simp only [ok_bind, pure_bind_except]
          exact ih _ _ _
        · have hrb : resetBuf wt ov cur = ([], 0) := by
            unfold resetBuf
            rw [if_neg ho]
          rw [if_neg ho, hrb]
          simp only [pure_bind_except]
          exact ih _ _ _
      · rw [if_neg hf, if_neg hf]
        exact ih _ _ _

/-- With never-failing adapters the body of the `try` block succeeds with
the pure result. -/
theorem chunkBodyE_ok (sent_tok word_tok : String → List String)
    (text : String) (M ov : Nat) :
    chunkBodyE (fun t => .ok (sent_tok t)) (fun s => .ok (word_tok s)) text M ov =
      .ok (chunkTry sent_tok word_tok text M ov) := by
  unfold chunkBodyE chunkTry
  simp only [ok_bind]
  by_cases h : sent_tok text = []
  · rw [if_pos h, if_pos h]
    rfl
  · rw [if_neg h, if_neg h]
    rw [chunkLoopE_ok word_tok M ov (sent_tok text) [] [] 0]
    rfl

/-- Never-failing adapters: `chunk` returns exactly the pure `chunkTry`
result, so the pure model is the non-failure behaviour of the endpoint. -/
theorem chunk_ok_adapters (sent_tok word_tok : String → List String)
    (text : String) (M ov : Nat) :
    chunk (fun t => .ok (sent_tok t)) (fun s => .ok (word_tok s)) text M ov =
      chunkTry sent_tok word_tok text M ov := by
  unfold chunk
  rw [chunkBodyE_ok]

end ThaiNLP
